import Mathlib

/-!
Verification development for the roc-massrecruit repository.

The SQLite database of `run.py` is embedded as a `Store` value: the
`user_credentials` table is a list of credential rows in rowid
(insertion) order, and the `recruit_solves` and `account_cookies`
tables, both keyed by a unique username, are embedded as finite
lookup functions from usernames.  Timestamps are integers
(`int(time.time())` in the source).  Each database-mutating method of
`AccountManager` becomes a pure function from `Store` to `Store`.
-/

namespace RocRecruit

/-- Row of the `user_credentials` table (run.py, `init_database`). -/
structure Cred where
  username : String
  password : String
  email : String
deriving DecidableEq

/-- Row of the `recruit_solves` table: both data columns are nullable
(`next_recruit_timestamp INTEGER`, `in_progress_since INTEGER`). -/
structure Sched where
  next_recruit : Option Int
  in_progress : Option Int
deriving DecidableEq

/-- The SQLite database of `run.py`: credentials in rowid order, and the
schedule and cookie tables as username-keyed lookup functions. -/
structure Store where
  creds : List Cred
  solves : String → Option Sched
  cookies : String → Option String

/-- Stored `next_recruit_timestamp` of a username (`NULL` and a missing
row both read back as `none`). -/
def nextOf (s : Store) (u : String) : Option Int :=
  (s.solves u).bind Sched.next_recruit

/-- Stored `in_progress_since` (the lease timestamp) of a username. -/
def leaseOf (s : Store) (u : String) : Option Int :=
  (s.solves u).bind Sched.in_progress

/-- Effective next-eligible time: `COALESCE(rs.next_recruit_timestamp, 0)`
after the `LEFT JOIN`, so a missing row and a `NULL` column are both `0`. -/
def effNext (s : Store) (u : String) : Int :=
  (nextOf s u).getD 0

/-- Write one `recruit_solves` row, replacing any previous row for the
same username (the table has `username TEXT UNIQUE`). -/
def setSolve (s : Store) (u : String) (d : Sched) : Store :=
  { s with solves := fun v => if v = u then some d else s.solves v }

/-- run.py `save_recruit_solve_timestamp`: `INSERT OR REPLACE INTO
recruit_solves (username, next_recruit_timestamp, last_updated)`.  The
replaced row's `in_progress_since` column is not named, so it becomes
`NULL`. -/
def save_recruit_solve_timestamp (s : Store) (u : String) (t : Option Int) : Store :=
  setSolve s u ⟨t, none⟩

/-- run.py `mark_user_in_progress`: `INSERT OR REPLACE INTO recruit_solves
(username, in_progress_since, last_updated)`.  The replaced row's
`next_recruit_timestamp` column is not named, so it becomes `NULL`. -/
def mark_user_in_progress (s : Store) (u : String) (now : Int) : Store :=
  setSolve s u ⟨none, some now⟩

/-- run.py `clear_user_in_progress`: `UPDATE recruit_solves SET
in_progress_since = NULL WHERE username = ?` (no-op when no row exists). -/
def clear_user_in_progress (s : Store) (u : String) : Store :=
  { s with solves := fun v =>
      if v = u then (s.solves v).map (fun d => ⟨d.next_recruit, none⟩)
      else s.solves v }

/-- Body of the expired-lease sweep, parametrised by the timeout in
seconds: `UPDATE recruit_solves SET in_progress_since = NULL WHERE
in_progress_since IS NOT NULL AND in_progress_since < now - timeout`. -/
def clearExpiredAt (s : Store) (now timeoutSeconds : Int) : Store :=
  { s with solves := fun v => (s.solves v).map (fun d =>
      match d.in_progress with
      | some t => if t < now - timeoutSeconds then ⟨d.next_recruit, none⟩ else d
      | none => d) }

/-- run.py `clear_expired_in_progress` with its `timeout_minutes`
parameter (`timeout_seconds = timeout_minutes * 60`). -/
def clear_expired_in_progress (s : Store) (now timeoutMinutes : Int) : Store :=
  clearExpiredAt s now (timeoutMinutes * 60)

/-- run.py `save_cookies`: `INSERT OR REPLACE INTO account_cookies`. -/
def save_cookies (s : Store) (u blob : String) : Store :=
  { s with cookies := fun v => if v = u then some blob else s.cookies v }

/-- Lease clause of the selection query: `rs.in_progress_since IS NULL OR
rs.in_progress_since < now - timeout` (a missing row reads as `NULL`). -/
def leaseFreeB (s : Store) (now timeoutSeconds : Int) (u : String) : Bool :=
  match leaseOf s u with
  | none => true
  | some t => decide (t < now - timeoutSeconds)

/-- Full `WHERE` clause of the selection query in
`get_next_eligible_user_atomic`:
`COALESCE(rs.next_recruit_timestamp, 0) <= now AND (lease clause)`. -/
def eligibleB (s : Store) (now timeoutSeconds : Int) (u : String) : Bool :=
  decide (effNext s u ≤ now) && leaseFreeB s now timeoutSeconds u

/-- `ORDER BY key ASC LIMIT 1` over a scan: keep the current minimum and
replace it only on a strictly smaller key, so the first row of the scan
attaining the minimum wins.  The scan order is the rowid order of
`user_credentials`. -/
def argminFirst (k : Cred → Int) : List Cred → Option Cred
  | [] => none
  | c :: cs =>
    match argminFirst k cs with
    | none => some c
    | some b => if k b < k c then some b else some c

/-- run.py `get_next_eligible_user_atomic`: inside one locked
transaction, clear expired leases, select the eligible credential with
the smallest `COALESCE(next_recruit_timestamp, 0)`, and mark it
in-progress at `now`.  When no row qualifies the connection is closed
without `commit`, so the expired-lease `UPDATE` rolls back and the store
is returned unchanged. -/
def get_next_eligible_user_atomic (s : Store) (now timeoutMinutes : Int) :
    Option Cred × Store :=
  match argminFirst
      (fun c => effNext (clearExpiredAt s now (timeoutMinutes * 60)) c.username)
      ((clearExpiredAt s now (timeoutMinutes * 60)).creds.filter
        (fun c => eligibleB (clearExpiredAt s now (timeoutMinutes * 60)) now
          (timeoutMinutes * 60) c.username)) with
  | some c =>
    (some c,
      mark_user_in_progress (clearExpiredAt s now (timeoutMinutes * 60)) c.username now)
  | none => (none, s)

/-- Row of the credentials CSV file (columns `user`, `pass`, `email`). -/
structure CsvRow where
  user : String
  pass : String
  email : String
deriving DecidableEq

/-- Python `str.strip()`: drop whitespace from both ends. -/
def stripStr (s : String) : String :=
  String.mk (((s.data.dropWhile Char.isWhitespace).reverse.dropWhile
    Char.isWhitespace).reverse)

/-- A CSV row is synced only when both the stripped username and the
stripped password are nonempty (`if username and password:`). -/
def validRow (r : CsvRow) : Bool :=
  decide (stripStr r.user ≠ "") && decide (stripStr r.pass ≠ "")

/-- `INSERT OR REPLACE INTO user_credentials`: the old row with the same
username is deleted and the fresh row receives a new rowid, hence goes
to the end of the scan order. -/
def insertOrReplaceCred (l : List Cred) (c : Cred) : List Cred :=
  l.filter (fun d => decide (d.username ≠ c.username)) ++ [c]

/-- Credential-insertion loop of `sync_csv_to_database`, starting from
the emptied table (`DELETE FROM user_credentials`). -/
def syncCreds : List CsvRow → List Cred → List Cred
  | [], acc => acc
  | r :: rs, acc =>
    syncCreds rs
      (if validRow r then
        insertOrReplaceCred acc ⟨stripStr r.user, stripStr r.pass, stripStr r.email⟩
      else acc)

/-- run.py `sync_csv_to_database`: empty `user_credentials`, insert every
valid CSV row, then `DELETE FROM recruit_solves WHERE username NOT IN
(SELECT username FROM user_credentials)`.  The `account_cookies` table
is not touched. -/
def sync_csv_to_database (s : Store) (rows : List CsvRow) : Store :=
  { creds := syncCreds rows []
  , solves := fun u =>
      if (syncCreds rows []).any (fun c => decide (c.username = u)) then s.solves u
      else none
  , cookies := s.cookies }

/-- Keypad configuration of `ROCCaptchaSelector` (captcha_selector.py):
button dimensions, the per-page keypad top-left corners, and the keypad
gap, all read from settings. -/
structure SelectorConfig where
  btn_w : Int
  btn_h : Int
  keypadTopLeft : List (String × (Int × Int))
  keypadGap : Int × Int

/-- captcha_selector.py `get_xy_static`: raises when `page` has no entry
in the keypad table, otherwise computes the button cell of `number`
(Python `%` and `//` are `Int.emod` and `Int.fdiv` here).  The final
random click point sampled inside the button rectangle is abstracted to
the button's top-left corner; the failure contract and the cell
arithmetic are exactly the source's. -/
def get_xy_static (cfg : SelectorConfig) (number : Int) (page : String) :
    Except String (Int × Int) :=
  match cfg.keypadTopLeft.lookup page with
  | none =>
    Except.error ("Page " ++ page ++ " does not have coordinates for captchas!")
  | some pos =>
    Except.ok
      (pos.1 + ((number - 1).emod 3) * cfg.keypadGap.1,
       pos.2 + ((number - 1).fdiv 3) * cfg.keypadGap.2)

/-- Configuration surface of the recruit workflow (settings_loader.py). -/
structure RecruitCfg where
  use_captcha : Bool
  threshold : ℚ
  max_attempts : Nat
  selector : SelectorConfig

/-- Result of one run of `AccountManager.recruit`: a returned `True`, a
returned `False`, or an uncaught exception escaping the method. -/
inductive RecruitResult
  | success
  | failure
  | raised
deriving DecidableEq

/-- Behaviour of the external collaborators during one iteration of the
attempt loop in `recruit`: what the recruit page shows, whether each
network or parsing step raises, and what the solving API answers. -/
structure AttemptEnv where
  fetchRaises : Bool
  hasUnsolvedMarker : Bool
  pageTimestamp : Option Int
  imgPresent : Bool
  srcPresent : Bool
  downloadRaises : Bool
  download200 : Bool
  pilRaises : Bool
  apiFails : Bool
  apiNum : Int
  apiConfidence : ℚ
  submitRaises : Bool
  submitHasUnsolved : Bool
  submitHasSuccess : Bool
  submitTimestamp : Option Int
  sessionBlob : String

/-- Submission phase of one attempt (run.py lines 622-651): `session.post`
inside a `try`.  The third component counts submissions (POSTs to the
recruit page).  A raised POST is caught and continues the loop; an
unsolved marker (CAPTCHA mode only) continues; the success marker saves
cookies and, when a nonzero timestamp is extracted, the schedule, and
returns `True`; anything else falls through and continues. -/
def recruit_submit (u : String) (env : AttemptEnv) (s : Store) (useCap : Bool) :
    Option RecruitResult × Store × Nat :=
  if env.submitRaises then (none, s, 1)
  else if useCap && env.submitHasUnsolved then (none, s, 1)
  else if env.submitHasSuccess then
    (some RecruitResult.success,
      (match env.submitTimestamp with
       | some t =>
         if t = 0 then save_cookies s u env.sessionBlob
         else save_recruit_solve_timestamp (save_cookies s u env.sessionBlob) u (some t)
       | none => save_cookies s u env.sessionBlob), 1)
  else (none, s, 1)

/-- One iteration of the attempt loop in `recruit` (run.py lines 524-651).
`none` means the Python `continue`; `some r` means the loop ends with
result `r`.  The unguarded statements (the page GET with
`raise_for_status`, the CAPTCHA download GET, `PIL.Image.open`/`save`,
and the `get_xy_static` call) raise out of the method; the guarded ones
(`try` blocks around the API call and the submission) continue the
loop.  A page without the unsolved marker returns `True` immediately,
saving the extracted timestamp when it is truthy. -/
def recruit_attempt (cfg : RecruitCfg) (u : String) (env : AttemptEnv) (s : Store) :
    Option RecruitResult × Store × Nat :=
  if cfg.use_captcha then
    if env.fetchRaises then (some RecruitResult.raised, s, 0)
    else if !env.hasUnsolvedMarker then
      (some RecruitResult.success,
        (match env.pageTimestamp with
         | some t => if t = 0 then s else save_recruit_solve_timestamp s u (some t)
         | none => s), 0)
    else if !env.imgPresent then (none, s, 0)
    else if !env.srcPresent then (none, s, 0)
    else if env.downloadRaises then (some RecruitResult.raised, s, 0)
    else if !env.download200 then (none, s, 0)
    else if env.pilRaises then (some RecruitResult.raised, s, 0)
    else if env.apiFails then (none, s, 0)
    else if env.apiConfidence < cfg.threshold then (none, s, 0)
    else
      match get_xy_static cfg.selector env.apiNum "roc_recruit" with
      | Except.error _ => (some RecruitResult.raised, s, 0)
      | Except.ok _ => recruit_submit u env s true
  else recruit_submit u env s false

/-- The attempt loop of `recruit`, threading the store and the submission
count through the remaining attempts. -/
def recruit_go (cfg : RecruitCfg) (u : String) :
    List AttemptEnv → Store → Nat → RecruitResult × Store × Nat
  | [], s, k => (RecruitResult.failure, s, k)
  | env :: rest, s, k =>
    match recruit_attempt cfg u env s with
    | (some r, s1, m) => (r, s1, k + m)
    | (none, s1, m) => recruit_go cfg u rest s1 (k + m)

/-- run.py `recruit`: `for attempt in range(self.max_attempts)` over the
per-attempt environments, returning `False` when the loop exhausts. -/
def recruit (cfg : RecruitCfg) (u : String) (envs : List AttemptEnv) (s : Store) :
    RecruitResult × Store × Nat :=
  recruit_go cfg u (envs.take cfg.max_attempts) s 0

/-- Observable outcome of `process_account` as seen by the worker loop: a
returned `True`, a returned `False`, or an exception propagating out. -/
inductive Outcome
  | success
  | failure
  | exn
deriving DecidableEq

/-- Body of one iteration of run.py `streaming_worker`: claim atomically;
when a user is claimed run the account workflow; when it returns (either
boolean) call `clear_user_in_progress`; when it raises, the `except`
arm of the loop catches the exception and `clear_user_in_progress` is
never reached.  The second component counts `clear_user_in_progress`
(release) calls in the iteration. -/
def streaming_worker_step (s : Store) (now timeoutMinutes : Int)
    (runAccount : String → Store → Outcome × Store) : Store × Nat :=
  match get_next_eligible_user_atomic s now timeoutMinutes with
  | (some c, s1) =>
    match runAccount c.username s1 with
    | (Outcome.exn, s2) => (s2, 0)
    | (_, s2) => (clear_user_in_progress s2 c.username, 1)
  | (none, s1) => (s1, 0)

/-- Concrete credential row used in witnesses. -/
def credA : Cred := ⟨"a", "p", "e"⟩

/-- Store with one credential whose schedule row has
`next_recruit_timestamp = 5` and no lease. -/
def storeA : Store :=
  { creds := [credA]
  , solves := fun u => if u = "a" then some ⟨some 5, none⟩ else none
  , cookies := fun _ => none }

/-- Attempt environment that reaches the coordinate-mapping step with a
confident answer. -/
def envConfident : AttemptEnv :=
  { fetchRaises := false
  , hasUnsolvedMarker := true
  , pageTimestamp := none
  , imgPresent := true
  , srcPresent := true
  , downloadRaises := false
  , download200 := true
  , pilRaises := false
  , apiFails := false
  , apiNum := 3
  , apiConfidence := mkRat 9 10
  , submitRaises := false
  , submitHasUnsolved := false
  , submitHasSuccess := false
  , submitTimestamp := none
  , sessionBlob := "blob" }

/-- Attempt environment whose recruit page shows no challenge, so the
attempt returns `True` immediately without saving a timestamp. -/
def envNoCaptcha : AttemptEnv :=
  { envConfident with hasUnsolvedMarker := false }

/-- Attempt environment whose solving API answers with confidence 2/5. -/
def envLowConf : AttemptEnv :=
  { envConfident with apiConfidence := mkRat 2 5 }

/-- Selector configuration without a `roc_recruit` keypad entry. -/
def selNoRecruit : SelectorConfig :=
  ⟨40, 30, [("roc_armory", (973, 1011))], (52, 42)⟩

/-- Workflow configuration with CAPTCHA mode on, threshold 4/5, two
attempts, and a keypad table lacking `roc_recruit`. -/
def cfgNoRecruit : RecruitCfg := ⟨true, mkRat 4 5, 2, selNoRecruit⟩

/-! Helper lemmas about the store operations. -/

theorem setSolve_solves_self (s : Store) (u : String) (d : Sched) :
    (setSolve s u d).solves u = some d := by
  simp [setSolve]

theorem setSolve_solves_ne (s : Store) (u v : String) (d : Sched) (h : v ≠ u) :
    (setSolve s u d).solves v = s.solves v := by
  simp [setSolve, h]

theorem nextOf_clearExpiredAt (s : Store) (now T : Int) (u : String) :
    nextOf (clearExpiredAt s now T) u = nextOf s u := by
  unfold nextOf clearExpiredAt
  cases h : s.solves u with
  | none => simp [h]
  | some d =>
    cases hp : d.in_progress with
    | none => simp [h, hp]
    | some t => by_cases ht : t < now - T <;> simp [h, hp, ht]

theorem effNext_clearExpiredAt (s : Store) (now T : Int) (u : String) :
    effNext (clearExpiredAt s now T) u = effNext s u := by
  unfold effNext
  rw [nextOf_clearExpiredAt]

theorem leaseFreeB_clearExpiredAt (s : Store) (now T : Int) (u : String) :
    leaseFreeB (clearExpiredAt s now T) now T u = leaseFreeB s now T u := by
  unfold leaseFreeB leaseOf clearExpiredAt
  cases h : s.solves u with
  | none => simp [h]
  | some d =>
    cases hp : d.in_progress with
    | none => simp [h, hp]
    | some t => by_cases ht : t < now - T <;> simp [h, hp, ht]

theorem eligibleB_clearExpiredAt (s : Store) (now T : Int) (u : String) :
    eligibleB (clearExpiredAt s now T) now T u = eligibleB s now T u := by
  unfold eligibleB
  rw [effNext_clearExpiredAt, leaseFreeB_clearExpiredAt]

theorem eligibleB_eq_true_iff (s : Store) (now T : Int) (u : String) :
    eligibleB s now T u = true ↔
      effNext s u ≤ now ∧
        (leaseOf s u = none ∨ ∃ t, leaseOf s u = some t ∧ t < now - T) := by
  unfold eligibleB leaseFreeB
  cases h : leaseOf s u <;> simp [h]

/-! Helper lemmas about the `ORDER BY ... LIMIT 1` scan. -/

theorem argminFirst_eq_none (k : Cred → Int) :
    ∀ l : List Cred, argminFirst k l = none ↔ l = []
  | [] => by simp [argminFirst]
  | a :: as => by
    unfold argminFirst
    cases argminFirst k as with
    | none => simp
    | some b => by_cases hb : k b < k a <;> simp [hb]

theorem argminFirst_mem (k : Cred → Int) :
    ∀ (l : List Cred) (c : Cred), argminFirst k l = some c → c ∈ l
  | [], c, h => by simp [argminFirst] at h
  | a :: as, c, h => by
    unfold argminFirst at h
    cases hm : argminFirst k as with
    | none =>
      rw [hm] at h
      cases h
      exact List.mem_cons_self a as
    | some b =>
      rw [hm] at h
      have h2 : (if k b < k a then some b else some a) = some c := h
      by_cases hb : k b < k a
      · rw [if_pos hb] at h2
        cases h2
        exact List.mem_cons_of_mem a (argminFirst_mem k as c hm)
      · rw [if_neg hb] at h2
        cases h2
        exact List.mem_cons_self a as

theorem argminFirst_le (k : Cred → Int) :
    ∀ (l : List Cred) (c : Cred), argminFirst k l = some c →
      ∀ d ∈ l, k c ≤ k d
  | [], c, h => by simp [argminFirst] at h
  | a :: as, c, h => by
    unfold argminFirst at h
    cases hm : argminFirst k as with
    | none =>
      rw [hm] at h
      cases h
      intro d hd
      rcases List.mem_cons.mp hd with rfl | hd
      · exact le_refl _
      · rw [(argminFirst_eq_none k as).mp hm] at hd
        simp at hd
    | some b =>
      rw [hm] at h
      have h2 : (if k b < k a then some b else some a) = some c := h
      by_cases hb : k b < k a
      · rw [if_pos hb] at h2
        cases h2
        intro d hd
        rcases List.mem_cons.mp hd with rfl | hd
        · exact le_of_lt hb
        · exact argminFirst_le k as c hm d hd
      · rw [if_neg hb] at h2
        cases h2
        intro d hd
        rcases List.mem_cons.mp hd with rfl | hd
        · exact le_refl _
        · exact le_trans (not_lt.mp hb) (argminFirst_le k as b hm d hd)

theorem find_congr_mem {p q : Cred → Bool} :
    ∀ l : List Cred, (∀ x ∈ l, p x = q x) → l.find? p = l.find? q
  | [], _ => rfl
  | a :: as, h => by
    have ha := h a (List.mem_cons_self a as)
    have htail := find_congr_mem (p := p) (q := q) as
      (fun x hx => h x (List.mem_cons_of_mem a hx))
    by_cases hp : p a = true
    · rw [List.find?_cons_of_pos _ hp, List.find?_cons_of_pos _ (ha ▸ hp)]
    · have hp2 : ¬ q a = true := ha ▸ hp
      rw [List.find?_cons_of_neg _ hp, List.find?_cons_of_neg _ hp2]
      exact htail

/-- The scan returns the first element of the list, in order, whose key
is less than or equal to every key in the list. -/
theorem argminFirst_eq_find (k : Cred → Int) :
    ∀ l : List Cred,
      argminFirst k l = l.find? (fun c => l.all (fun d => decide (k c ≤ k d)))
  | [] => rfl
  | a :: as => by
    unfold argminFirst
    cases hm : argminFirst k as with
    | none =>
      rw [(argminFirst_eq_none k as).mp hm]
      simp
    | some b =>
      have hbmem := argminFirst_mem k as b hm
      have hble := argminFirst_le k as b hm
      show (if k b < k a then some b else some a)
        = (a :: as).find? (fun c => (a :: as).all (fun d => decide (k c ≤ k d)))
      by_cases hb : k b < k a
      · rw [if_pos hb]
        have hpa : ((a :: as).all (fun d => decide (k a ≤ k d))) = false := by
          simp only [List.all_eq_false, decide_eq_true_eq]
          exact ⟨b, List.mem_cons_of_mem a hbmem, not_le.mpr hb⟩
        rw [List.find?_cons_of_neg
          (p := fun c => (a :: as).all (fun d => decide (k c ≤ k d))) _
          (by simp [hpa])]
        have hcongr :
            as.find? (fun c => (a :: as).all (fun d => decide (k c ≤ k d)))
              = as.find? (fun c => as.all (fun d => decide (k c ≤ k d))) := by
          apply find_congr_mem
          intro x hx
          by_cases hq : as.all (fun d => decide (k x ≤ k d)) = true
          · have hxb : k x ≤ k b := by
              have := List.all_eq_true.mp hq b hbmem
              simpa using this
            have hxa : k x ≤ k a := le_of_lt (lt_of_le_of_lt hxb hb)
            have hall : ((a :: as).all (fun d => decide (k x ≤ k d))) = true := by
              simp only [List.all_eq_true, decide_eq_true_eq] at hq ⊢
              intro d hd
              rcases List.mem_cons.mp hd with rfl | hd
              · exact hxa
              · exact hq d hd
            rw [hall, hq]
          · have hq2 : as.all (fun d => decide (k x ≤ k d)) = false :=
              Bool.eq_false_iff.mpr hq
            rw [List.all_cons, hq2, Bool.and_false]
        rw [hcongr, ← argminFirst_eq_find k as, hm]
      · rw [if_neg hb]
        have hpa : ((a :: as).all (fun d => decide (k a ≤ k d))) = true := by
          simp only [List.all_eq_true, decide_eq_true_eq]
          intro d hd
          rcases List.mem_cons.mp hd with rfl | hd
          · exact le_refl _
          · exact le_trans (not_lt.mp hb) (hble d hd)
        rw [List.find?_cons_of_pos
          (p := fun c => (a :: as).all (fun d => decide (k c ≤ k d))) _ hpa]

/-! Helper lemmas about the atomic claim. -/

theorem claimNext_fst (s : Store) (now m : Int) :
    (get_next_eligible_user_atomic s now m).1 =
      argminFirst (fun c => effNext s c.username)
        (s.creds.filter (fun c => eligibleB s now (m * 60) c.username)) := by
  unfold get_next_eligible_user_atomic
  have hk : (fun c : Cred => effNext (clearExpiredAt s now (m * 60)) c.username)
      = fun c : Cred => effNext s c.username :=
    funext fun c => effNext_clearExpiredAt s now (m * 60) c.username
  have hp : (fun c : Cred =>
        eligibleB (clearExpiredAt s now (m * 60)) now (m * 60) c.username)
      = fun c : Cred => eligibleB s now (m * 60) c.username :=
    funext fun c => eligibleB_clearExpiredAt s now (m * 60) c.username
  have hc : (clearExpiredAt s now (m * 60)).creds = s.creds := rfl
  rw [hk, hp, hc]
  cases argminFirst (fun c : Cred => effNext s c.username)
      (s.creds.filter (fun c => eligibleB s now (m * 60) c.username)) <;> rfl

theorem claimNext_eq_some (s : Store) (now m : Int) (c : Cred)
    (h : (get_next_eligible_user_atomic s now m).1 = some c) :
    get_next_eligible_user_atomic s now m =
      (some c,
        mark_user_in_progress (clearExpiredAt s now (m * 60)) c.username now) := by
  unfold get_next_eligible_user_atomic at h ⊢
  cases hm : argminFirst
      (fun c => effNext (clearExpiredAt s now (m * 60)) c.username)
      ((clearExpiredAt s now (m * 60)).creds.filter
        (fun c => eligibleB (clearExpiredAt s now (m * 60)) now
          (m * 60) c.username)) with
  | none => rw [hm] at h; simp at h
  | some b =>
    rw [hm] at h
    have h2 : some b = some c := h
    cases h2
    rfl

theorem claimNext_mem_eligible (s : Store) (now m : Int) (c : Cred)
    (h : (get_next_eligible_user_atomic s now m).1 = some c) :
    c ∈ s.creds ∧ eligibleB s now (m * 60) c.username = true := by
  rw [claimNext_fst] at h
  have hmem := argminFirst_mem _ _ _ h
  exact ⟨(List.mem_filter.mp hmem).1, (List.mem_filter.mp hmem).2⟩

theorem leaseOf_mark (s : Store) (u : String) (now : Int) :
    leaseOf (mark_user_in_progress s u now) u = some now := by
  simp [mark_user_in_progress, leaseOf, setSolve]

/-! The claims. -/

/-- C1: `get_next_eligible_user_atomic` returns an account `c` only if `c`
has a credential row, `c`'s effective next-eligible time
(`COALESCE(next_recruit_timestamp, 0)`) is at most `now`, and `c`'s lease
is absent or expired (`in_progress_since < now - timeout`); among all
qualifying accounts the returned one has the smallest effective
next-eligible time; the returned account's lease timestamp is `now` in
the resulting store; and the claim returns nothing when no account
qualifies.  In particular an account whose effective next-eligible time
exceeds `now` is never returned. -/
theorem claimNext_correct (s : Store) (now m : Int) :
    (∀ c : Cred, (get_next_eligible_user_atomic s now m).1 = some c →
        c ∈ s.creds
      ∧ effNext s c.username ≤ now
      ∧ (leaseOf s c.username = none ∨
          ∃ t, leaseOf s c.username = some t ∧ t < now - m * 60)
      ∧ (∀ d ∈ s.creds, eligibleB s now (m * 60) d.username = true →
          effNext s c.username ≤ effNext s d.username)
      ∧ leaseOf (get_next_eligible_user_atomic s now m).2 c.username = some now)
  ∧ ((∀ d ∈ s.creds, eligibleB s now (m * 60) d.username = false) →
      (get_next_eligible_user_atomic s now m).1 = none)
  ∧ (∀ u : String, now < effNext s u →
      ∀ c : Cred, (get_next_eligible_user_atomic s now m).1 = some c →
        c.username ≠ u) := by
  refine ⟨?_, ?_, ?_⟩
  · intro c h
    obtain ⟨hmem, helig⟩ := claimNext_mem_eligible s now m c h
    obtain ⟨hle, hfree⟩ := (eligibleB_eq_true_iff s now (m * 60) c.username).mp helig
    refine ⟨hmem, hle, hfree, ?_, ?_⟩
    · intro d hd hed
      rw [claimNext_fst] at h
      exact argminFirst_le _ _ _ h d (List.mem_filter.mpr ⟨hd, hed⟩)
    · rw [claimNext_eq_some s now m c h]
      exact leaseOf_mark _ _ _
  · intro hall
    rw [claimNext_fst]
    have hnil :
        s.creds.filter (fun c => eligibleB s now (m * 60) c.username) = [] := by
      rw [List.filter_eq_nil_iff]
      intro a ha
      simp [hall a ha]
    rw [hnil]
    rfl
  · intro u hu c h hequ
    obtain ⟨-, helig⟩ := claimNext_mem_eligible s now m c h
    rw [hequ] at helig
    obtain ⟨hle, -⟩ := (eligibleB_eq_true_iff _ _ _ _).mp helig
    exact absurd hu (not_lt.mpr hle)

/-- Witness for `claimNext_correct`: at `storeA` and `now = 10` the account
`credA` (effective next-eligible time 5, no lease) is claimed and its
lease is set to 10. -/
theorem claimNext_correct_witness :
    credA ∈ storeA.creds
  ∧ effNext storeA credA.username ≤ 10
  ∧ (leaseOf storeA credA.username = none ∨
      ∃ t, leaseOf storeA credA.username = some t ∧ t < 10 - 1 * 60)
  ∧ (∀ d ∈ storeA.creds, eligibleB storeA 10 (1 * 60) d.username = true →
      effNext storeA credA.username ≤ effNext storeA d.username)
  ∧ leaseOf (get_next_eligible_user_atomic storeA 10 1).2 credA.username
      = some 10 :=
  (claimNext_correct storeA 10 1).1 credA (by decide)

/-- C2: while a lease timestamp `t` is stored for `u`, a claim at any
`now ≤ t + timeout` never returns `u`; once `t + timeout < now` the lease
is treated as expired, and `u` passes the claim query's filter again as
soon as its effective next-eligible time has passed. -/
theorem lease_timeout_boundary (s : Store) (u : String) (t now m : Int)
    (hl : leaseOf s u = some t) :
    (now ≤ t + m * 60 →
      ∀ c : Cred, (get_next_eligible_user_atomic s now m).1 = some c →
        c.username ≠ u)
  ∧ (t + m * 60 < now → effNext s u ≤ now →
      eligibleB s now (m * 60) u = true) := by
  constructor
  · intro hnow c h hequ
    obtain ⟨-, helig⟩ := claimNext_mem_eligible s now m c h
    rw [hequ] at helig
    obtain ⟨-, hfree⟩ := (eligibleB_eq_true_iff _ _ _ _).mp helig
    rcases hfree with hnone | ⟨t2, ht2, hlt⟩
    · rw [hl] at hnone
      exact Option.noConfusion hnone
    · rw [hl] at ht2
      have ht3 : t = t2 := Option.some.inj ht2
      omega
  · intro hnow hle
    rw [eligibleB_eq_true_iff]
    exact ⟨hle, Or.inr ⟨t, hl, by omega⟩⟩

/-- Store with one credential whose schedule row carries a lease taken at
time 3 and a `NULL` next-recruit timestamp (the state `storeA` reaches
right after being claimed). -/
def storeB : Store :=
  { creds := [credA]
  , solves := fun u => if u = "a" then some ⟨none, some 3⟩ else none
  , cookies := fun _ => none }

/-- Witness for `lease_timeout_boundary`: with a lease taken at 3 and a
one-minute timeout, a claim at `now = 10` cannot return the account,
while at `now = 100` the account passes the filter again. -/
theorem lease_timeout_boundary_witness :
    (∀ c : Cred, (get_next_eligible_user_atomic storeB 10 1).1 = some c →
        c.username ≠ "a")
  ∧ eligibleB storeB 100 (1 * 60) "a" = true :=
  ⟨(lease_timeout_boundary storeB "a" 3 10 1 (by decide)).1 (by decide),
   (lease_timeout_boundary storeB "a" 3 100 1 (by decide)).2 (by decide)
     (by decide)⟩

/-- C9: the claim is deterministic on equal store state - two stores with
the same credential table and pointwise-equal schedule tables yield the
same claimed account - and the chosen account follows a fixed rule: the
first credential in table (rowid) order, among those passing the
eligibility filter, whose effective next-eligible time is minimal.  Ties
on the key are therefore broken by credential-table insertion order. -/
theorem claimNext_deterministic (s s2 : Store) (now m : Int)
    (hc : s.creds = s2.creds) (hs : ∀ u, s.solves u = s2.solves u) :
    (get_next_eligible_user_atomic s now m).1
      = (get_next_eligible_user_atomic s2 now m).1
  ∧ (get_next_eligible_user_atomic s now m).1
      = (s.creds.filter (fun c => eligibleB s now (m * 60) c.username)).find?
          (fun c =>
            (s.creds.filter (fun d => eligibleB s now (m * 60) d.username)).all
              (fun d => decide (effNext s c.username ≤ effNext s d.username))) := by
  have hsol : s.solves = s2.solves := funext hs
  have heff : (fun c : Cred => effNext s c.username)
      = fun c : Cred => effNext s2 c.username := by
    funext c
    unfold effNext nextOf
    rw [hsol]
  have helig : (fun c : Cred => eligibleB s now (m * 60) c.username)
      = fun c : Cred => eligibleB s2 now (m * 60) c.username := by
    funext c
    unfold eligibleB leaseFreeB effNext nextOf leaseOf
    rw [hsol]
  constructor
  · rw [claimNext_fst, claimNext_fst, hc, heff, helig]
  · rw [claimNext_fst, argminFirst_eq_find]

/-- Credential row for a second account. -/
def credB : Cred := ⟨"b", "q", "f"⟩

/-- Store with two credentials (`"b"` inserted before `"a"`) and no
schedule rows at all, so both accounts tie at effective time 0. -/
def storeTie : Store :=
  { creds := [credB, credA]
  , solves := fun _ => none
  , cookies := fun _ => none }

/-- The same store state as `storeTie` written with a different (but
pointwise equal) schedule function. -/
def storeTie2 : Store :=
  { creds := [credB, credA]
  , solves := fun u => if u = "zzz" then none else none
  , cookies := fun _ => none }

/-- Witness for `claimNext_deterministic`: the two extensionally equal
tied stores produce the same claim, namely the first credential in table
order (`credB`, inserted first), not the alphabetically smaller one. -/
theorem claimNext_deterministic_witness :
    ((get_next_eligible_user_atomic storeTie 10 1).1
      = (get_next_eligible_user_atomic storeTie2 10 1).1)
  ∧ (get_next_eligible_user_atomic storeTie 10 1).1 = some credB :=
  ⟨(claimNext_deterministic storeTie storeTie2 10 1 rfl
      (fun u => by by_cases h : u = "zzz" <;> simp [storeTie, storeTie2, h])).1,
   by decide⟩

theorem leaseOf_clear (s : Store) (u : String) :
    leaseOf (clear_user_in_progress s u) u = none := by
  unfold leaseOf clear_user_in_progress
  simp only [if_pos rfl]
  cases s.solves u <;> simp

/-- C5: `save_recruit_solve_timestamp u T` (release with an advance)
leaves `u` with `next_recruit_timestamp = T` and no lease, touching no
other user's row; `clear_user_in_progress u` (release with outcome
unchanged) clears `u`'s lease, leaves every stored
`next_recruit_timestamp` untouched, and touches no other user's row. -/
theorem release_outcomes (s : Store) (u : String) (T : Int) :
    (save_recruit_solve_timestamp s u (some T)).solves u = some ⟨some T, none⟩
  ∧ effNext (save_recruit_solve_timestamp s u (some T)) u = T
  ∧ leaseOf (save_recruit_solve_timestamp s u (some T)) u = none
  ∧ (∀ v, v ≠ u →
      (save_recruit_solve_timestamp s u (some T)).solves v = s.solves v)
  ∧ (∀ v, nextOf (clear_user_in_progress s u) v = nextOf s v)
  ∧ leaseOf (clear_user_in_progress s u) u = none
  ∧ (∀ v, v ≠ u → (clear_user_in_progress s u).solves v = s.solves v) := by
  refine ⟨?_, ?_, ?_, ?_, ?_, ?_, ?_⟩
  · exact setSolve_solves_self s u _
  · simp [effNext, nextOf, save_recruit_solve_timestamp, setSolve]
  · simp [leaseOf, save_recruit_solve_timestamp, setSolve]
  · intro v hv
    exact setSolve_solves_ne s u v _ hv
  · intro v
    unfold nextOf clear_user_in_progress
    by_cases hv : v = u
    · rw [hv]
      simp only [if_pos rfl]
      cases s.solves u <;> simp
    · simp [hv]
  · exact leaseOf_clear s u
  · intro v hv
    simp [clear_user_in_progress, hv]

/-- Witness for `release_outcomes` at `storeB` (one row, leased at 3). -/
theorem release_outcomes_witness :
    (save_recruit_solve_timestamp storeB "a" (some 7)).solves "a"
      = some ⟨some 7, none⟩
  ∧ leaseOf (clear_user_in_progress storeB "a") "a" = none
  ∧ (clear_user_in_progress storeB "a").solves "b" = storeB.solves "b" :=
  ⟨(release_outcomes storeB "a" 7).1,
   (release_outcomes storeB "a" 7).2.2.2.2.2.1,
   (release_outcomes storeB "a" 7).2.2.2.2.2.2 "b" (by decide)⟩

/-- C10: `save_recruit_solve_timestamp` replaces the whole
`recruit_solves` row, so it also clears `in_progress_since` as a side
effect: when the workflow records a success mid-run, the lease is already
gone before the worker's explicit `clear_user_in_progress` call (which is
then a no-op on the schedule), and the account already passes the claim
filter at any `now ≥ T` while the first workflow is still finishing. -/
theorem save_timestamp_releases_lease (s : Store) (u : String) (T now m : Int)
    (h : T ≤ now) :
    leaseOf (save_recruit_solve_timestamp s u (some T)) u = none
  ∧ eligibleB (save_recruit_solve_timestamp s u (some T)) now (m * 60) u = true
  ∧ (∀ v,
      (clear_user_in_progress (save_recruit_solve_timestamp s u (some T)) u).solves v
        = (save_recruit_solve_timestamp s u (some T)).solves v) := by
  refine ⟨?_, ?_, ?_⟩
  · simp [leaseOf, save_recruit_solve_timestamp, setSolve]
  · rw [eligibleB_eq_true_iff]
    constructor
    · simpa [effNext, nextOf, save_recruit_solve_timestamp, setSolve] using h
    · left
      simp [leaseOf, save_recruit_solve_timestamp, setSolve]
  · intro v
    unfold clear_user_in_progress save_recruit_solve_timestamp setSolve
    by_cases hv : v = u <;> simp [hv]

/-- Witness for `save_timestamp_releases_lease`: recording a solve at
time 5 on `storeB` wipes the lease taken at 3 and the account passes the
claim filter at `now = 10`. -/
theorem save_timestamp_releases_lease_witness :
    leaseOf (save_recruit_solve_timestamp storeB "a" (some 5)) "a" = none
  ∧ eligibleB (save_recruit_solve_timestamp storeB "a" (some 5)) 10 (1 * 60) "a"
      = true :=
  ⟨(save_timestamp_releases_lease storeB "a" 5 10 1 (by decide)).1,
   (save_timestamp_releases_lease storeB "a" 5 10 1 (by decide)).2.1⟩

/-- C3 counterexample: in `storeA` the account has stored
`next_recruit_timestamp = 5`; claiming it at `now = 10` rewrites its
schedule row through `INSERT OR REPLACE`, so the stored value becomes
`NULL` (effective 0).  The claim operation therefore does change the
account's `next_eligible_at`, refuting the claim as stated. -/
theorem claim_resets_next_cex :
    (get_next_eligible_user_atomic storeA 10 1).1 = some credA
  ∧ nextOf storeA "a" = some 5
  ∧ nextOf (get_next_eligible_user_atomic storeA 10 1).2 "a" = none
  ∧ effNext (get_next_eligible_user_atomic storeA 10 1).2 "a"
      ≠ effNext storeA "a" := by
  decide

/-- C3 (amended): `save_recruit_solve_timestamp` sets the stored
`next_recruit_timestamp`; releasing a failed or skipped attempt through
`clear_user_in_progress` never changes it, nor does the expired-lease
sweep; but the claim operation (like the `mark_user_in_progress` helper)
resets the chosen account's stored `next_recruit_timestamp` to `NULL`
through its `INSERT OR REPLACE`, while leaving every other account's
value unchanged. -/
theorem next_recruit_mutation (s : Store) (now m : Int) (u : String) :
    (∀ c : Cred, ∀ s2 : Store,
      get_next_eligible_user_atomic s now m = (some c, s2) →
        s2.solves c.username = some ⟨none, some now⟩
      ∧ (∀ v, v ≠ c.username → nextOf s2 v = nextOf s v))
  ∧ (∀ v, nextOf (clear_user_in_progress s u) v = nextOf s v)
  ∧ (∀ v T, nextOf (clear_expired_in_progress s now T) v = nextOf s v)
  ∧ (∀ T, nextOf (save_recruit_solve_timestamp s u (some T)) u = some T)
  ∧ (mark_user_in_progress s u now).solves u = some ⟨none, some now⟩ := by
  refine ⟨?_, ?_, ?_, ?_, ?_⟩
  · intro c s2 hclaim
    have h1 : (get_next_eligible_user_atomic s now m).1 = some c := by
      rw [hclaim]
    have h2 := claimNext_eq_some s now m c h1
    rw [hclaim] at h2
    have hs2 : s2
        = mark_user_in_progress (clearExpiredAt s now (m * 60)) c.username now :=
      congrArg Prod.snd h2
    constructor
    · rw [hs2]
      exact setSolve_solves_self _ _ _
    · intro v hv
      have hstep : nextOf s2 v = nextOf (clearExpiredAt s now (m * 60)) v := by
        rw [hs2]
        unfold nextOf mark_user_in_progress
        rw [setSolve_solves_ne _ _ _ _ hv]
      rw [hstep, nextOf_clearExpiredAt]
  · intro v
    unfold nextOf clear_user_in_progress
    by_cases hv : v = u
    · rw [hv]
      simp only [if_pos rfl]
      cases s.solves u <;> simp
    · simp [hv]
  · intro v T
    unfold clear_expired_in_progress
    exact nextOf_clearExpiredAt s now (T * 60) v
  · intro T
    simp [nextOf, save_recruit_solve_timestamp, setSolve]
  · exact setSolve_solves_self _ _ _

/-- Witness for `next_recruit_mutation`: claiming `storeA` rewrites the
claimed row to `(NULL, 10)` and leaves other usernames' stored
timestamps unchanged. -/
theorem next_recruit_mutation_witness :
    ((get_next_eligible_user_atomic storeA 10 1).2.solves credA.username
        = some ⟨none, some 10⟩)
  ∧ nextOf (get_next_eligible_user_atomic storeA 10 1).2 "z"
      = nextOf storeA "z" :=
  ⟨((next_recruit_mutation storeA 10 1 "a").1 credA
      (get_next_eligible_user_atomic storeA 10 1).2 rfl).1,
   ((next_recruit_mutation storeA 10 1 "a").1 credA
      (get_next_eligible_user_atomic storeA 10 1).2 rfl).2 "z" (by decide)⟩

/-- Workflow stand-in that raises an exception out of `process_account`. -/
def wfExn : String → Store → Outcome × Store := fun _ st => (Outcome.exn, st)

/-- C4 counterexample: at `storeA` and `now = 10` a claim happens, yet
when the workflow raises, the worker iteration performs zero
`clear_user_in_progress` (release) calls - not exactly one - and the
lease set by the claim is still held afterwards, refuting the claim that
release happens exactly once regardless of exceptions. -/
theorem worker_exception_skips_release_cex :
    (get_next_eligible_user_atomic storeA 10 1).1 = some credA
  ∧ (streaming_worker_step storeA 10 1 wfExn).2 = 0
  ∧ leaseOf (streaming_worker_step storeA 10 1 wfExn).1 "a" = some 10 := by
  decide

/-- C4 (amended): the worker body releases exactly once - clearing the
claimed account's lease - whenever the workflow returns (success or
failure); but when the workflow raises, the loop's `except` handler
catches the exception and no release happens in that iteration, so the
lease is recovered only through the lease-timeout expiry path. -/
theorem worker_release_behavior (s : Store) (now m : Int)
    (wf : String → Store → Outcome × Store) (c : Cred) (s1 : Store)
    (hclaim : get_next_eligible_user_atomic s now m = (some c, s1)) :
    ((wf c.username s1).1 ≠ Outcome.exn →
        (streaming_worker_step s now m wf).2 = 1
      ∧ leaseOf (streaming_worker_step s now m wf).1 c.username = none)
  ∧ ((wf c.username s1).1 = Outcome.exn →
        (streaming_worker_step s now m wf).2 = 0
      ∧ (streaming_worker_step s now m wf).1 = (wf c.username s1).2) := by
  cases hwf : wf c.username s1 with
  | mk o s2 =>
    cases o with
    | success =>
      refine ⟨fun _ => ⟨?_, ?_⟩, fun hx => ?_⟩
      · simp [streaming_worker_step, hclaim, hwf]
      · simp [streaming_worker_step, hclaim, hwf, leaseOf_clear]
      · exact absurd hx (by simp)
    | failure =>
      refine ⟨fun _ => ⟨?_, ?_⟩, fun hx => ?_⟩
      · simp [streaming_worker_step, hclaim, hwf]
      · simp [streaming_worker_step, hclaim, hwf, leaseOf_clear]
      · exact absurd hx (by simp)
    | exn =>
      refine ⟨fun hx => ?_, fun _ => ⟨?_, ?_⟩⟩
      · exact absurd rfl hx
      · simp [streaming_worker_step, hclaim, hwf]
      · simp [streaming_worker_step, hclaim, hwf]

/-- Workflow stand-in that returns success without touching the store. -/
def wfSucc : String → Store → Outcome × Store := fun _ st => (Outcome.success, st)

/-- Witness for `worker_release_behavior`: a returning workflow leads to
exactly one release and a cleared lease. -/
theorem worker_release_behavior_witness :
    (streaming_worker_step storeA 10 1 wfSucc).2 = 1
  ∧ leaseOf (streaming_worker_step storeA 10 1 wfSucc).1 credA.username
      = none :=
  (worker_release_behavior storeA 10 1 wfSucc credA
    (get_next_eligible_user_atomic storeA 10 1).2 rfl).1 (by decide)

/-! Helper lemmas about the CSV sync. -/

theorem mem_insertOrReplaceCred (l : List Cred) (c d : Cred) :
    d ∈ insertOrReplaceCred l c ↔ (d ∈ l ∧ d.username ≠ c.username) ∨ d = c := by
  unfold insertOrReplaceCred
  simp [List.mem_append, List.mem_filter]

theorem exists_username_insertOrReplaceCred (l : List Cred) (c : Cred)
    (u : String) :
    (∃ d ∈ insertOrReplaceCred l c, d.username = u)
      ↔ (∃ d ∈ l, d.username = u) ∨ c.username = u := by
  constructor
  · rintro ⟨d, hd, rfl⟩
    rcases (mem_insertOrReplaceCred l c d).mp hd with ⟨hdl, -⟩ | rfl
    · exact Or.inl ⟨d, hdl, rfl⟩
    · exact Or.inr rfl
  · rintro (⟨d, hd, rfl⟩ | rfl)
    · by_cases hdc : d.username = c.username
      · exact ⟨c, (mem_insertOrReplaceCred l c c).mpr (Or.inr rfl), hdc.symm⟩
      · exact ⟨d, (mem_insertOrReplaceCred l c d).mpr (Or.inl ⟨hd, hdc⟩), rfl⟩
    · exact ⟨c, (mem_insertOrReplaceCred l c c).mpr (Or.inr rfl), rfl⟩

theorem exists_username_syncCreds :
    ∀ (rs : List CsvRow) (acc : List Cred) (u : String),
      (∃ c ∈ syncCreds rs acc, c.username = u)
        ↔ (∃ c ∈ acc, c.username = u)
          ∨ ∃ r ∈ rs, validRow r = true ∧ stripStr r.user = u
  | [], acc, u => by simp [syncCreds]
  | r :: rs, acc, u => by
    unfold syncCreds
    rw [exists_username_syncCreds rs _ u]
    by_cases hv : validRow r = true
    · rw [if_pos hv, exists_username_insertOrReplaceCred]
      constructor
      · rintro ((⟨c, hc, hcu⟩ | hcu) | ⟨r2, hr2, hval, hstr⟩)
        · exact Or.inl ⟨c, hc, hcu⟩
        · exact Or.inr ⟨r, List.mem_cons_self r rs, hv, hcu⟩
        · exact Or.inr ⟨r2, List.mem_cons_of_mem r hr2, hval, hstr⟩
      · rintro (⟨c, hc, hcu⟩ | ⟨r2, hr2, hval, hstr⟩)
        · exact Or.inl (Or.inl ⟨c, hc, hcu⟩)
        · rcases List.mem_cons.mp hr2 with rfl | hr2
          · exact Or.inl (Or.inr hstr)
          · exact Or.inr ⟨r2, hr2, hval, hstr⟩
    · rw [if_neg hv]
      constructor
      · rintro (h | ⟨r2, hr2, hval, hstr⟩)
        · exact Or.inl h
        · exact Or.inr ⟨r2, List.mem_cons_of_mem r hr2, hval, hstr⟩
      · rintro (h | ⟨r2, hr2, hval, hstr⟩)
        · exact Or.inl h
        · rcases List.mem_cons.mp hr2 with rfl | hr2
          · exact absurd hval hv
          · exact Or.inr ⟨r2, hr2, hval, hstr⟩

theorem syncCreds_sub :
    ∀ (rs : List CsvRow) (acc : List Cred) (c : Cred),
      c ∈ syncCreds rs acc →
        c ∈ acc ∨ ∃ r ∈ rs, validRow r = true
          ∧ c = ⟨stripStr r.user, stripStr r.pass, stripStr r.email⟩
  | [], acc, c, h => Or.inl (by simpa [syncCreds] using h)
  | r :: rs, acc, c, h => by
    unfold syncCreds at h
    by_cases hv : validRow r = true
    · rw [if_pos hv] at h
      rcases syncCreds_sub rs _ c h with hacc | ⟨r2, hr2, hval, hc⟩
      · rcases (mem_insertOrReplaceCred _ _ _).mp hacc with ⟨hl, -⟩ | rfl
        · exact Or.inl hl
        · exact Or.inr ⟨r, List.mem_cons_self r rs, hv, rfl⟩
      · exact Or.inr ⟨r2, List.mem_cons_of_mem r hr2, hval, hc⟩
    · rw [if_neg hv] at h
      rcases syncCreds_sub rs acc c h with hacc | ⟨r2, hr2, hval, hc⟩
      · exact Or.inl hacc
      · exact Or.inr ⟨r2, List.mem_cons_of_mem r hr2, hval, hc⟩

theorem sync_creds_username (s : Store) (L : List CsvRow) (u : String) :
    (∃ c ∈ (sync_csv_to_database s L).creds, c.username = u)
      ↔ ∃ r ∈ L, validRow r = true ∧ stripStr r.user = u := by
  unfold sync_csv_to_database
  rw [exists_username_syncCreds L [] u]
  simp

theorem sync_solves_none (s : Store) (L : List CsvRow) (u : String)
    (hu : ∀ r ∈ L, ¬(validRow r = true ∧ stripStr r.user = u)) :
    (sync_csv_to_database s L).solves u = none := by
  have hany : ¬ ((syncCreds L []).any (fun c => decide (c.username = u)) = true) := by
    intro hany
    rcases List.any_eq_true.mp hany with ⟨c, hc, hcu⟩
    have hcu2 : c.username = u := of_decide_eq_true hcu
    rcases (exists_username_syncCreds L [] u).mp ⟨c, hc, hcu2⟩ with
      ⟨c2, hc2, -⟩ | ⟨r, hr, hval, hstr⟩
    · simp at hc2
    · exact hu r hr ⟨hval, hstr⟩
  show (if (syncCreds L []).any (fun c => decide (c.username = u))
      then s.solves u else none) = none
  rw [if_neg hany]

/-- C6: `sync_csv_to_database` leaves the credential table holding exactly
the valid rows of the CSV list (a username is present precisely when some
valid row carries it, and every credential row is the stripped image of a
valid row); it deletes every schedule row whose username belongs to no
valid row of the list; it creates no schedule row (a username without one
keeps none, so newly added usernames are immediately eligible); it leaves
the session (cookie) table untouched; and consequently after syncing
`[A, B]` and then `[A]`, `B`'s schedule row is gone and the credential
table - the join key through which schedule and session rows are
addressed - holds rows only for `A`. -/
theorem sync_csv_spec (s : Store) (L : List CsvRow) :
    (∀ u, (∃ c ∈ (sync_csv_to_database s L).creds, c.username = u)
        ↔ ∃ r ∈ L, validRow r = true ∧ stripStr r.user = u)
  ∧ (∀ c ∈ (sync_csv_to_database s L).creds,
      ∃ r ∈ L, validRow r = true
        ∧ c = ⟨stripStr r.user, stripStr r.pass, stripStr r.email⟩)
  ∧ (∀ u, (∀ r ∈ L, ¬(validRow r = true ∧ stripStr r.user = u)) →
      (sync_csv_to_database s L).solves u = none)
  ∧ (∀ u, s.solves u = none → (sync_csv_to_database s L).solves u = none)
  ∧ (sync_csv_to_database s L).cookies = s.cookies
  ∧ (∀ A B : CsvRow, validRow A = true → validRow B = true →
      stripStr B.user ≠ stripStr A.user →
        ((sync_csv_to_database (sync_csv_to_database s [A, B]) [A]).solves
          (stripStr B.user) = none)
      ∧ ∀ c ∈ (sync_csv_to_database (sync_csv_to_database s [A, B]) [A]).creds,
          c.username = stripStr A.user) := by
  refine ⟨sync_creds_username s L, ?_, fun u => sync_solves_none s L u, ?_, rfl, ?_⟩
  · intro c hc
    rcases syncCreds_sub L [] c hc with h | h
    · simp at h
    · exact h
  · intro u hsu
    show (if (syncCreds L []).any (fun c => decide (c.username = u))
        then s.solves u else none) = none
    split
    · exact hsu
    · rfl
  · intro A B hA hB hne
    constructor
    · apply sync_solves_none
      intro r hr
      rcases List.mem_cons.mp hr with rfl | hr
      · rintro ⟨-, hstr⟩
        exact hne hstr.symm
      · simp at hr
    · intro c hc
      rcases syncCreds_sub [A] [] c hc with h | ⟨r, hrmem, -, hc2⟩
      · simp at h
      · rcases List.mem_cons.mp hrmem with rfl | hrmem
        · rw [hc2]
        · simp at hrmem

/-- Concrete CSV rows for the sync witness. -/
def rowA : CsvRow := ⟨"a", "p", "e"⟩

/-- Second concrete CSV row for the sync witness. -/
def rowB : CsvRow := ⟨"b", "q", "f"⟩

/-- Witness for `sync_csv_spec`: after syncing `[rowA, rowB]` and then
`[rowA]`, the schedule row of `"b"` is gone and every credential row
belongs to `"a"`. -/
theorem sync_csv_spec_witness :
    ((sync_csv_to_database (sync_csv_to_database storeA [rowA, rowB])
        [rowA]).solves (stripStr rowB.user) = none)
  ∧ ∀ c ∈ (sync_csv_to_database (sync_csv_to_database storeA [rowA, rowB])
        [rowA]).creds, c.username = stripStr rowA.user :=
  (sync_csv_spec storeA [rowA, rowB]).2.2.2.2.2 rowA rowB (by decide) (by decide)
    (by decide)

/-! Helper lemma for the low-confidence workflow scenario. -/

theorem recruit_go_all_low (cfg : RecruitCfg) (u : String)
    (hcap : cfg.use_captcha = true) :
    ∀ (l : List AttemptEnv) (s : Store) (k : Nat),
      (∀ e ∈ l, e.fetchRaises = false ∧ e.hasUnsolvedMarker = true
        ∧ e.imgPresent = true ∧ e.srcPresent = true ∧ e.downloadRaises = false
        ∧ e.download200 = true ∧ e.pilRaises = false ∧ e.apiFails = false
        ∧ e.apiConfidence < cfg.threshold) →
      recruit_go cfg u l s k = (RecruitResult.failure, s, k)
  | [], _, _, _ => rfl
  | env :: rest, s, k, hall => by
    obtain ⟨h1, h2, h3, h4, h5, h6, h7, h8, h9⟩ :=
      hall env (List.mem_cons_self env rest)
    have hstep : recruit_attempt cfg u env s = (none, s, 0) := by
      unfold recruit_attempt
      rw [hcap]
      simp [h1, h2, h3, h4, h5, h6, h7, h8, h9]
    unfold recruit_go
    rw [hstep]
    show recruit_go cfg u rest s (k + 0) = (RecruitResult.failure, s, k)
    rw [Nat.add_zero]
    exact recruit_go_all_low cfg u hcap rest s k
      (fun e he => hall e (List.mem_cons_of_mem env he))

/-- C7: with CAPTCHA mode on and a challenge present, when the solving
API's confidence is strictly below the configured threshold on an
attempt, that attempt makes no submission (its step is a bare `continue`
counting against `max_attempts`, with the store untouched); and when this
happens on every attempt, the workflow returns failure with zero
submissions and the store - in particular the schedule - unchanged. -/
theorem low_confidence_attempts_fail (cfg : RecruitCfg) (u : String)
    (envs : List AttemptEnv) (s : Store)
    (hcap : cfg.use_captcha = true)
    (hall : ∀ e ∈ envs, e.fetchRaises = false ∧ e.hasUnsolvedMarker = true
      ∧ e.imgPresent = true ∧ e.srcPresent = true ∧ e.downloadRaises = false
      ∧ e.download200 = true ∧ e.pilRaises = false ∧ e.apiFails = false
      ∧ e.apiConfidence < cfg.threshold) :
    recruit cfg u envs s = (RecruitResult.failure, s, 0)
  ∧ (∀ e ∈ envs, recruit_attempt cfg u e s = (none, s, 0)) := by
  constructor
  · unfold recruit
    exact recruit_go_all_low cfg u hcap (envs.take cfg.max_attempts) s 0
      (fun e he => hall e (List.take_subset _ _ he))
  · intro e he
    obtain ⟨h1, h2, h3, h4, h5, h6, h7, h8, h9⟩ := hall e he
    unfold recruit_attempt
    rw [hcap]
    simp [h1, h2, h3, h4, h5, h6, h7, h8, h9]

/-- Configuration with CAPTCHA mode on, threshold 4/5, two attempts, and
the default keypad table containing `roc_recruit`. -/
def cfgDefault : RecruitCfg :=
  ⟨true, mkRat 4 5, 2, ⟨40, 30, [("roc_recruit", (890, 705))], (52, 42)⟩⟩

/-- Witness for `low_confidence_attempts_fail`: two attempts with
confidence 2/5 against threshold 4/5 end in failure, zero submissions,
store unchanged. -/
theorem low_confidence_attempts_fail_witness :
    recruit cfgDefault "a" [envLowConf, envLowConf] storeA
      = (RecruitResult.failure, storeA, 0) :=
  (low_confidence_attempts_fail cfgDefault "a" [envLowConf, envLowConf] storeA
    rfl (by decide)).1

/-- C8 counterexample: with a keypad table lacking `roc_recruit` and
`max_attempts = 2`, a first attempt that reaches the coordinate mapping
with a confident answer aborts the whole run with an uncaught exception
(`raised`) and zero submissions, even though the second attempt's
environment would have succeeded had the loop continued - so the
contract violation is not treated as a failure of the current attempt
that continues the loop, refuting the claim as stated. -/
theorem unknown_zone_aborts_cex :
    recruit cfgNoRecruit "a" [envConfident, envNoCaptcha] storeA
      = (RecruitResult.raised, storeA, 0)
  ∧ recruit cfgNoRecruit "a" [envNoCaptcha, envNoCaptcha] storeA
      = (RecruitResult.success, storeA, 0)
  ∧ RecruitResult.raised ≠ RecruitResult.failure :=
  ⟨rfl, rfl, by decide⟩

/-- C8 (amended): `get_xy_static` fails for every page (zone) name absent
from its configured keypad table; inside the workflow this exception is
raised outside the attempt loop's `try` blocks, so rather than consuming
one of `max_attempts` and continuing, the run aborts immediately: no
submission is made, no further attempt runs, and the store is unchanged.
The worker's outer `except` handler catches the exception, so the worker
itself survives. -/
theorem unknown_zone_raises (cfg : RecruitCfg) (n : Int) (page : String)
    (u : String) (env : AttemptEnv) (envs : List AttemptEnv) (s : Store)
    (hz : cfg.selector.keypadTopLeft.lookup page = none) :
    get_xy_static cfg.selector n page
      = Except.error ("Page " ++ page ++ " does not have coordinates for captchas!")
  ∧ (cfg.use_captcha = true → 1 ≤ cfg.max_attempts →
      cfg.selector.keypadTopLeft.lookup "roc_recruit" = none →
      env.fetchRaises = false → env.hasUnsolvedMarker = true →
      env.imgPresent = true → env.srcPresent = true →
      env.downloadRaises = false → env.download200 = true →
      env.pilRaises = false → env.apiFails = false →
      ¬ env.apiConfidence < cfg.threshold →
      recruit cfg u (env :: envs) s = (RecruitResult.raised, s, 0)) := by
  constructor
  · unfold get_xy_static
    rw [hz]
  · intro hcap hmax hz2 h1 h2 h3 h4 h5 h6 h7 h8 h9
    obtain ⟨k, hk⟩ : ∃ k, cfg.max_attempts = k + 1 :=
      ⟨cfg.max_attempts - 1, by omega⟩
    have hxy : get_xy_static cfg.selector env.apiNum "roc_recruit"
        = Except.error
            ("Page " ++ "roc_recruit" ++ " does not have coordinates for captchas!") := by
      unfold get_xy_static
      rw [hz2]
    have hstep : recruit_attempt cfg u env s
        = (some RecruitResult.raised, s, 0) := by
      unfold recruit_attempt
      rw [hcap]
      simp [h1, h2, h3, h4, h5, h6, h7, h8, h9, hxy]
    unfold recruit
    rw [hk, List.take_succ_cons]
    unfold recruit_go
    rw [hstep]

/-- Witness for `unknown_zone_raises` at `cfgNoRecruit` and the
environments of the counterexample. -/
theorem unknown_zone_raises_witness :
    (get_xy_static cfgNoRecruit.selector 3 "roc_recruit"
      = Except.error
          ("Page " ++ "roc_recruit" ++ " does not have coordinates for captchas!"))
  ∧ recruit cfgNoRecruit "a" (envConfident :: [envNoCaptcha]) storeA
      = (RecruitResult.raised, storeA, 0) :=
  ⟨(unknown_zone_raises cfgNoRecruit 3 "roc_recruit" "a" envConfident
      [envNoCaptcha] storeA rfl).1,
   (unknown_zone_raises cfgNoRecruit 3 "roc_recruit" "a" envConfident
      [envNoCaptcha] storeA rfl).2 rfl (by decide) rfl rfl rfl rfl rfl rfl rfl
      rfl rfl (by decide)⟩

end RocRecruit
